import Mathlib

/-!
Shallow embedding of the report-reconciliation core of MOSCA
(`workflow/scripts/general_report.py` and `workflow/mosca.py`).

Python strings are Lean `String`s; where the scripts use Python string
methods whose Lean counterparts are not structurally recursive, the
methods are re-implemented over `String.data` so that every definition
evaluates by kernel reduction.  pandas DataFrames are lists of rows;
missing values (NaN) are `Option.none`; numeric (float) cells are
modelled as exact rationals.
-/

namespace Mosca

/-! ### Python string primitives -/

/-- Python `str.strip()`: remove leading and trailing whitespace. -/
def pyStrip (cs : List Char) : List Char :=
  ((cs.dropWhile Char.isWhitespace).reverse.dropWhile Char.isWhitespace).reverse

/-- Python `str.startswith(p)`. -/
def pyStartsWith (p s : String) : Bool := List.isPrefixOf p.data s.data

/-- Python `str.split(sep)` for a one-character separator: cuts at every
occurrence of the separator, keeping empty segments. -/
def splitChar (sep : Char) : List Char → List (List Char)
  | [] => [[]]
  | c :: cs =>
    if c = sep then [] :: splitChar sep cs
    else
      match splitChar sep cs with
      | [] => [[c]]
      | seg :: rest => (c :: seg) :: rest

/-- Python `x.split('_')[1]`, the lambda used at general_report.py lines 44
and 59 (`none` where Python would raise `IndexError`). -/
def splitSecond (s : String) : Option String :=
  ((splitChar '_' s.data).map fun cs => String.mk cs)[1]?

/-- Worker for `pySplit`: Python `str.split` with the non-empty separator
`s0 :: srest`, scanning left to right without overlap. -/
def pySplitGo (s0 : Char) (srest : List Char) : List Char → List (List Char)
  | [] => [[]]
  | c :: cs =>
    if List.isPrefixOf (s0 :: srest) (c :: cs) then
      [] :: pySplitGo s0 srest (cs.drop srest.length)
    else
      match pySplitGo s0 srest cs with
      | [] => [[c]]
      | seg :: rest => (c :: seg) :: rest
termination_by l => l.length
decreasing_by
  all_goals simp only [List.length_cons, List.length_drop]
  all_goals omega

/-- Python `str.split(sep)` for a multi-character separator.  (Python
raises `ValueError` on an empty separator; that case is unreachable in
this code base.) -/
def pySplit (sep : String) (s : String) : List String :=
  match sep.data with
  | [] => [s]
  | s0 :: srest => (pySplitGo s0 srest s.data).map fun cs => String.mk cs

/-! ### Errors raised by the Python runtime, and `str.join` -/

inductive PyErr where
  | typeError (msg : String)
  | systemExit (msg : String)
deriving DecidableEq

/-- A Python value handed to `str.join`. -/
inductive PyVal where
  | pystr (s : String)
  | pybool (b : Bool)
  | pylist (xs : List String)

/-- Python `sep.join(v)`: defined for iterables of strings (a string is an
iterable of its characters); a boolean raises `TypeError`. -/
def strJoin (sep : String) : PyVal → Except PyErr String
  | PyVal.pylist xs => Except.ok (String.intercalate sep xs)
  | PyVal.pystr s => Except.ok (String.intercalate sep (s.data.map fun c => String.mk [c]))
  | PyVal.pybool _ => Except.error (PyErr.typeError "can only join an iterable")

/-! ### pandas primitives -/

/-- Worker for `duplicated`. -/
def duplicatedAux [DecidableEq α] (seen : List α) : List α → List Bool
  | [] => []
  | x :: xs => decide (x ∈ seen) :: duplicatedAux (x :: seen) xs

/-- pandas `Series.duplicated()`: flags each element equal to an earlier
element of the series (the first occurrence is not flagged). -/
def duplicated [DecidableEq α] (xs : List α) : List Bool := duplicatedAux [] xs

/-- pandas `merge(l, r, on=key, how='left')`: every left row is paired
with every matching right row, or with `none` when no right row matches. -/
def leftMerge [DecidableEq κ] (l : List α) (r : List β) (lk : α → κ) (rk : β → κ) :
    List (α × Option β) :=
  l.flatMap fun a =>
    match r.filter fun b => decide (rk b = lk a) with
    | [] => [(a, none)]
    | m :: ms => (m :: ms).map fun b => (a, some b)

/-- pandas `merge(l, r, on=key, how='outer')`: all matching pairs, plus
unmatched left rows, plus unmatched right rows. -/
def outerMerge [DecidableEq κ] (l : List α) (r : List β) (lk : α → κ) (rk : β → κ) :
    List (Option α × Option β) :=
  (l.flatMap fun a =>
    match r.filter fun b => decide (rk b = lk a) with
    | [] => [((some a : Option α), (none : Option β))]
    | m :: ms => (m :: ms).map fun b => (some a, some b)) ++
  ((r.filter fun b => l.all fun a => !(decide (lk a = rk b))).map fun b =>
    ((none : Option α), some b))

/-- Worker for `firstDedup`. -/
def firstDedupAux [DecidableEq α] (seen : List α) : List α → List α
  | [] => []
  | x :: xs => if x ∈ seen then firstDedupAux seen xs else x :: firstDedupAux (x :: seen) xs

/-- The distinct elements of a list, in order of first appearance (the
key order used below for grouping; pandas returns group keys sorted, an
ordering difference none of the stated properties depend on). -/
def firstDedup [DecidableEq α] (xs : List α) : List α := firstDedupAux [] xs

/-- Column-aligned combination of two field lists: per position, the left
value if non-null, else the right value; the longer list pads. -/
def orElsePad : List (Option σ) → List (Option σ) → List (Option σ)
  | [], ys => ys
  | x :: xs, [] => x :: xs
  | x :: xs, y :: ys => (if x.isSome then x else y) :: orElsePad xs ys

/-- pandas `GroupBy.first()` aggregation of one group's field lists: for
every column, the first non-null value among the group's rows. -/
def firstNonNull : List (List (Option σ)) → List (Option σ)
  | [] => []
  | r :: rs => orElsePad r (firstNonNull rs)

/-- pandas `df.groupby(key).first()`: one row per distinct key; each
column holds the group's first non-null value in row order. -/
def groupbyFirst [DecidableEq κ] (rows : List (κ × List (Option σ))) :
    List (κ × List (Option σ)) :=
  (firstDedup (rows.map Prod.fst)).map fun k =>
    (k, firstNonNull ((rows.filter fun r => decide (r.1 = k)).map Prod.snd))

/-! ### The cross-sample aggregation (general_report.py lines 105-120) -/

/-- A cross-sample accumulator table: rows of Entry plus one float cell
per experiment column. -/
abbrev QTable := List (String × List (Option ℚ))

/-- Position-wise addition, the longer list padding. -/
def addPad : List ℚ → List ℚ → List ℚ
  | [], ys => ys
  | x :: xs, [] => x :: xs
  | x :: xs, y :: ys => (x + y) :: addPad xs ys

/-- A row's float values with NaN read as 0 (pandas `sum` skips NaN). -/
def rowVals (r : List (Option ℚ)) : List ℚ := r.map fun v => v.getD 0

/-- Column-wise sum of a group's rows, skipping NaN cells; an empty (or
all-NaN) column sums to 0, as pandas `GroupBy.sum()` does. -/
def sumRows : List (List (Option ℚ)) → List ℚ
  | [] => []
  | r :: rs => addPad (rowVals r) (sumRows rs)

/-- `df.groupby('Entry').sum().reset_index()` preceded by the cast of the
value columns to float (lines 107-108, 111-112, 116-117). -/
def groupbySum (t : QTable) : QTable :=
  (firstDedup (t.map Prod.fst)).map fun k =>
    (k, (sumRows ((t.filter fun r => decide (r.1 = k)).map Prod.snd)).map some)

/-- pandas `DataFrame.drop_duplicates()`: keep the first occurrence of
every full row. -/
def dropDuplicates [DecidableEq α] (rows : List α) : List α := firstDedup rows

/-- pandas `DataFrame.dropna(subset=columns[1:])` with the default
`how='any'`: keep only rows whose value cells are all present. -/
def dropna (t : QTable) : QTable := t.filter fun r => r.2.all Option.isSome

/-- The metagenomics matrix written at lines 107-109. -/
def mgMatrix (t : QTable) : QTable := groupbySum t

/-- The metatranscriptomics matrix written at lines 111-113. -/
def mtMatrix (t : QTable) : QTable := groupbySum t

/-- The protein matrix written at lines 116-119: grouping followed by
`drop_duplicates().dropna(subset=columns[1:])` (line 118). -/
def mpMatrix (t : QTable) : QTable := dropna (dropDuplicates (groupbySum t))

/-! ### The report emitter (general_report.py lines 98-102) -/

/-- Cut a list into consecutive chunks of the given sizes. -/
def splitBySizes : List α → List ℕ → List (List α)
  | _, [] => []
  | xs, s :: ss => xs.take s :: splitBySizes (xs.drop s) ss

/-- `numpy.array_split(xs, n)`: `n` consecutive chunks of near-equal
size; the first `xs.length % n` chunks get one extra element.  (numpy
raises on `n = 0`; that case is unreachable here.) -/
def arraySplit (xs : List α) (n : ℕ) : List (List α) :=
  if n = 0 then []
  else
    splitBySizes xs
      (List.replicate (xs.length % n) (xs.length / n + 1) ++
       List.replicate (n - xs.length % n) (xs.length / n))

/-- Lines 98-102: the sheets written for one sample's report, as pairs of
sheet name and sheet rows; an oversized report is passed through
`numpy.array_split(report, len(report) // max_lines)`. -/
def sampleSheets (sample : String) (report : List α) (max_lines : ℕ) :
    List (String × List α) :=
  if report.length < max_lines then [(sample, report)]
  else
    (arraySplit report (report.length / max_lines)).enum.map fun p =>
      (sample ++ " (" ++ toString (p.1 + 1) ++ ")", p.2)

/-! ### Quantification fill-and-cast (general_report.py lines 78-85) -/

/-- numpy cast of a float to int: truncation toward zero. -/
def truncFloat (q : ℚ) : ℤ := if 0 ≤ q then ⌊q⌋ else ⌈q⌉

/-- One cell of line 85, `fillna(0).astype(float).astype(int)`. -/
def fillCastCell (v : Option ℚ) : ℤ := truncFloat (v.getD 0)

/-- The `ncols` quantification cells a feature row ends up with, from the
(possibly absent) matched source row. -/
def fillCastRow (ncols : ℕ) (v : Option (List (Option ℚ))) : List ℤ :=
  (List.range ncols).map fun j => fillCastCell ((v.getD [])[j]?.getD none)

/-- The left merge of one quantification table onto the feature keys
(lines 78-83), keeping only the matched value cells. -/
def mergeQuant (report : List String) (counts : List (String × List (Option ℚ))) :
    List (String × Option (List (Option ℚ))) :=
  (leftMerge report counts id Prod.fst).map fun p => (p.1, p.2.map Prod.snd)

/-- Lines 78-85 for one quantification table with `ncols` experiment
columns: merge, fill missing with 0, cast float-to-int. -/
def quantColumns (report : List String) (counts : List (String × List (Option ℚ)))
    (ncols : ℕ) : List (String × List ℤ) :=
  (mergeQuant report counts).map fun p => (p.1, fillCastRow ncols p.2)

/-! ### The per-sample annotation pipeline (general_report.py lines 23-44) -/

/-- Lines 23-24: the gene-calling FASTA headers,
`[line.strip()[1:] for line in f if line.startswith('>')]`. -/
def parseHeaders (lines : List String) : List String :=
  (lines.filter fun l => pyStartsWith ">" l).map fun l => String.mk ((pyStrip l.data).drop 1)

/-- One row of `COG_report.tsv`: query ID, the `DB ID` column, and the
remaining annotation fields. -/
structure CogRow where
  qseqid : String
  db_id : Option String
  fields : List (Option String)

/-- Line 30: `cog_report['DB ID'].str.startswith('COG') == True` (a NaN
`DB ID` compares unequal to True and is dropped). -/
def cogFilter (rows : List CogRow) : List CogRow :=
  rows.filter fun r =>
    match r.db_id with
    | some s => pyStartsWith "COG" s
    | none => false

/-- Lines 30-31: filter to COG rows, rename `DB ID` to `COG ID`, group by
`qseqid` and take first. -/
def cogGrouped (rows : List CogRow) : List (String × List (Option String)) :=
  groupbyFirst ((cogFilter rows).map fun r => (r.qseqid, r.db_id :: r.fields))

/-- One row of `UPIMAPI_results.tsv`: query ID plus its fields. -/
abbrev UpiRow := String × List (Option String)

/-- A row of the report after both annotation merges (line 36): the
matched UPIMAPI row and/or the matched header-plus-reCOGnizer row. -/
abbrev AnnRow := Option UpiRow × Option (String × Option (String × List (Option String)))

/-- Line 32: left merge of the grouped reCOGnizer table onto the header
list. -/
def reportAfterCog (headers : List String) (cog : List CogRow) :
    List (String × Option (String × List (Option String))) :=
  leftMerge headers (cogGrouped cog) id Prod.fst

/-- Line 36: `pd.merge(upimapi_results, report, on='qseqid', how='outer')`
(note: an outer merge with the UPIMAPI table on the left). -/
def reportRows (headers : List String) (cog : List CogRow) (upi : List UpiRow) :
    List AnnRow :=
  outerMerge upi (reportAfterCog headers cog) Prod.fst Prod.fst

/-- The `qseqid` value a merged report row carries. -/
def rowQseqid : AnnRow → String
  | (some u, _) => u.1
  | (none, some r) => r.1
  | (none, none) => ""

/-! ### Column naming after the UPIMAPI merge (general_report.py lines 38-41) -/

/-- Modelled from the spec: `blast_cols` is imported from `mosca_tools`,
which is not among the sources; sections 4.1 and 6 of the spec describe
the alignment tables as BLAST-style records (query ID, subject ID,
alignment metrics), i.e. the standard 12 tabular BLAST columns. -/
def blast_cols : List String :=
  ["qseqid", "sseqid", "pident", "length", "mismatch", "gapopen",
   "qstart", "qend", "sstart", "send", "evalue", "bitscore"]

/-- Line 39: `rename_cols = blast_cols + ['EC number']`. -/
def rename_cols : List String := blast_cols ++ ["EC number"]

/-- The column names of `pd.merge(l, r, on=key)`: left columns then right
columns, the key kept once, and every shared non-key column suffixed
with `_x` on the left and `_y` on the right. -/
def mergeColumns (lcols rcols : List String) (key : String) : List String :=
  (lcols.map fun c => if c ≠ key ∧ c ∈ rcols then c ++ "_x" else c) ++
  ((rcols.filter fun c => decide (c ≠ key)).map fun c =>
    if c ∈ lcols then c ++ "_y" else c)

/-- The rename dictionary of lines 40-41. -/
def renameMap : List (String × String) :=
  (rename_cols.map fun c => (c ++ "_x", c ++ " (UPIMAPI)")) ++
  (rename_cols.map fun c => (c ++ "_y", c ++ " (reCOGnizer)"))

/-- pandas `rename(columns=...)`: map a column through the dictionary,
keeping it unchanged when absent. -/
def renameColumn (c : String) : String := (renameMap.lookup c).getD c

/-- The report's column names after the merge of line 36 and the rename
of lines 40-41. -/
def finalColumns (lcols rcols : List String) : List String :=
  (mergeColumns lcols rcols "qseqid").map renameColumn

/-! ### Contig derivation and the DNA merge key (lines 43-44 and 55-59) -/

/-- Line 44: `report['Contig'] = report['qseqid'].apply(lambda x: x.split('_')[1])`. -/
def contigOfId (x : String) : Option String := splitSecond x

/-- Line 59: `counts['Contig'] = counts['Contig'].apply(lambda x: x.split('_')[1])`. -/
def contigOfCountsKey (x : String) : Option String := splitSecond x

/-- Lines 55-59 for the metagenomics table: when assembly was performed
the join-key column is the contig derived from the raw key, otherwise the
raw key itself. -/
def process_quantification_mg (did_assembly : Bool)
    (raw : List (String × List (Option ℚ))) : List (Option String × List (Option ℚ)) :=
  if did_assembly then raw.map fun c => (contigOfCountsKey c.1, c.2)
  else raw.map fun c => (some c.1, c.2)

/-- The report-side DNA merge key of lines 80-83: the `Contig` column when
assembly was performed, else `qseqid`. -/
def dnaKey (did_assembly : Bool) (q : String) : Option String :=
  if did_assembly then contigOfId q else some q

/-! ### One sample's full report, and the accumulator pass-through
(general_report.py lines 20-103) -/

/-- The per-sample input files, plus the experiment-name counts for each
data type (`none` counts mean the data type is absent for the sample and
its read is skipped, lines 70-75; the `n_*` fields are the lengths of
`mg_names`/`mt_names`/`mp_names`, zero when the type is absent). -/
structure SampleData where
  fasta_lines : List String
  cog : List CogRow
  upi : List UpiRow
  mg_counts : Option (List (String × List (Option ℚ)))
  mt_counts : Option (List (String × List (Option ℚ)))
  mp_counts : Option (List (String × List (Option ℚ)))
  n_mg : ℕ
  n_mt : ℕ
  n_mp : ℕ

/-- One row of the final per-sample report: the annotation part and the
matched quantification rows, with `quant` the filled-and-cast
quantification cells of line 85. -/
structure GRow where
  ann : AnnRow
  dna : Option (List (Option ℚ))
  rna : Option (List (Option ℚ))
  mp : Option (List (Option ℚ))
  quant : List ℤ

/-- Lines 23-86: the per-sample report table. -/
def sampleReport (did_assembly : Bool) (d : SampleData) : List GRow :=
  let rows0 := (reportRows (parseHeaders d.fasta_lines) d.cog d.upi).map
    fun r => GRow.mk r none none none []
  let rows1 :=
    match d.mg_counts with
    | none => rows0
    | some raw =>
      (leftMerge rows0 (process_quantification_mg did_assembly raw)
        (fun g => dnaKey did_assembly (rowQseqid g.ann)) Prod.fst).map
        fun (p : GRow × Option (Option String × List (Option ℚ))) =>
          { p.1 with dna := p.2.map Prod.snd }
  let rows2 :=
    match d.mt_counts with
    | none => rows1
    | some raw =>
      (leftMerge rows1 raw (fun g => rowQseqid g.ann) Prod.fst).map
        fun (p : GRow × Option (String × List (Option ℚ))) =>
          { p.1 with rna := p.2.map Prod.snd }
  let rows3 :=
    match d.mp_counts with
    | none => rows2
    | some raw =>
      (leftMerge rows2 raw (fun g => rowQseqid g.ann) Prod.fst).map
        fun (p : GRow × Option (String × List (Option ℚ))) =>
          { p.1 with mp := p.2.map Prod.snd }
  rows3.map fun g =>
    { g with quant :=
        fillCastRow d.n_mg g.dna ++ fillCastRow d.n_mt g.rna ++ fillCastRow d.n_mp g.mp }

/-- The four cross-sample accumulators threaded through
`make_general_report`. -/
structure Accs where
  mg_preport : QTable
  mt_preport : QTable
  mp_preport : QTable
  de_input : QTable
deriving DecidableEq

/-- Lines 20-87: build one sample's report and return it together with
the four accumulators (line 87 returns the parameters as received). -/
def make_general_report (did_assembly : Bool) (d : SampleData) (a : Accs) :
    List GRow × Accs :=
  (sampleReport did_assembly d, a)

/-- Line 91: the initial accumulators, `pd.DataFrame(columns=['Entry'])`
four times over (a header-only table with no rows). -/
def init_accs : Accs :=
  { mg_preport := [], mt_preport := [], mp_preport := [], de_input := [] }

/-- The per-sample loop of `make_general_reports` (lines 94-96): each
iteration rebinds the accumulators to the values `make_general_report`
returned. -/
def reportLoop (did_assembly : Bool) : List SampleData → Accs → Accs
  | [], a => a
  | d :: rest, a => reportLoop did_assembly rest (make_general_report did_assembly d a).2

/-! ### Experiment-manifest validation (mosca.py lines 51-79) -/

/-- One row of the experiments manifest (a falsy `Name` is `none`). -/
structure ExpRow where
  name : Option String
  sample : String
  data_type : String
  files : String

/-- mosca.py lines 52-58, `set_name`: the name auto-built from the `Files`
and `Data type` fields. -/
def set_name (files : String) (data_type : String) : String :=
  let filename := (pySplit "/" files).getLastD ""
  if data_type = "protein" then filename
  else if files.data.contains ',' then
    ((pySplit "_R" ((pySplit "," filename).headD "")).headD "")
  else (pySplit ".fa" filename).headD ""

/-- mosca.py lines 60-62. -/
def reserved_words : List String :=
  ["if", "else", "repeat", "while", "function", "for", "in", "next", "break",
   "TRUE", "FALSE", "NULL", "Inf", "NaN", "NA", "NA_integer_", "NA_real_",
   "NA_complex_", "NA_character_"]

/-- One character of the class `[\w.]` of the validation regex (ASCII
word characters). -/
def wordOrDot (c : Char) : Bool := c.isAlphanum || c = '_' || c = '.'

/-- The regex of mosca.py line 63: nonempty, all characters word
characters or dots, not starting with a digit nor with a dot followed by
a digit. -/
def good_pattern_match (s : String) : Bool :=
  match s.data with
  | [] => false
  | c :: cs =>
    (c :: cs).all wordOrDot && !c.isDigit &&
      !(c = '.' && (match cs with | c2 :: _ => c2.isDigit | [] => false))

/-- mosca.py lines 67-71: the reserved-word and pattern checks on one
(truthy) name. -/
def checkName (name : String) : Except PyErr Unit :=
  if name ∈ reserved_words then
    Except.error (PyErr.systemExit
      ("INVALID \"NAME\" in \"experiments\": " ++ name ++ " is a reserved R word."))
  else if !(good_pattern_match name) then
    Except.error (PyErr.systemExit
      ("INVALID \"NAME\" in \"experiments\": " ++ name ++
        " starts with a number or has a special character.\nPlease use only letters, numbers, dots (.) and underscores (_)."))
  else Except.ok ()

/-- mosca.py lines 64-71: the loop over the `Name` column (falsy names
are skipped, line 65-66). -/
def checkNames : List (Option String) → Except PyErr Unit
  | [] => Except.ok ()
  | none :: rest => checkNames rest
  | some "" :: rest => checkNames rest
  | some n :: rest => do
    checkName n
    checkNames rest

/-- mosca.py lines 72-75: fill every empty name from `set_name`. -/
def fillNames (rows : List ExpRow) : List String :=
  rows.map fun r =>
    match r.name with
    | none => set_name r.files r.data_type
    | some "" => set_name r.files r.data_type
    | some n => n

/-- mosca.py lines 51-79, `validate_exps`: name checks, auto-fill, then
the duplicate check of lines 78-79 whose error message interpolates
`",".join(exps["Name"].duplicated().any())` - a `str.join` applied to a
boolean. -/
def validate_exps (rows : List ExpRow) : Except PyErr Unit := do
  checkNames (rows.map ExpRow.name)
  let names := fillNames rows
  if (duplicated names).any id then
    match strJoin "," (PyVal.pybool ((duplicated names).any id)) with
    | Except.error e => Except.error e
    | Except.ok s =>
      Except.error (PyErr.systemExit
        ("ERROR: Multiple rows with same \"Name\" value: " ++ s ++ "."))
  else Except.ok ()

/-! ### Helper views used by the statements below -/

/-- Cell `j` of a field list (`none` beyond the end). -/
def getOpt (r : List (Option α)) (j : ℕ) : Option α := r[j]?.getD none

/-- Cell `j` of a float row, reading NaN (and absence) as 0. -/
def cellVal (r : List (Option ℚ)) (j : ℕ) : ℚ := (getOpt r j).getD 0

/-- The value rows an Entry contributes to an accumulator table. -/
def entryVals (t : QTable) (k : String) : List (List (Option ℚ)) :=
  (t.filter fun r => decide (r.1 = k)).map Prod.snd

/-- The first non-null value of a list, in order. -/
def specFirst : List (Option α) → Option α
  | [] => none
  | x :: xs => if x.isSome then x else specFirst xs

/-! ## Supporting lemmas -/

theorem firstDedupAux_mem [DecidableEq α] (seen xs : List α) (a : α) :
    a ∈ firstDedupAux seen xs ↔ a ∈ xs ∧ a ∉ seen := by
  induction xs generalizing seen with
  | nil => simp [firstDedupAux]
  | cons x xs ih =>
    by_cases hx : x ∈ seen
    · rw [firstDedupAux, if_pos hx, ih]
      simp only [List.mem_cons]
      constructor
      · exact fun h => ⟨Or.inr h.1, h.2⟩
      · rintro ⟨h1 | h1, h2⟩
        · exact absurd (h1 ▸ hx) h2
        · exact ⟨h1, h2⟩
    · rw [firstDedupAux, if_neg hx]
      simp only [List.mem_cons, ih]
      constructor
      · rintro (h | ⟨h1, h2⟩)
        · exact ⟨Or.inl h, h ▸ hx⟩
        · exact ⟨Or.inr h1, fun hs => h2 (Or.inr hs)⟩
      · rintro ⟨h1 | h1, h2⟩
        · exact Or.inl h1
        · by_cases hax : a = x
          · exact Or.inl hax
          · exact Or.inr ⟨h1, fun hs => hs.elim hax h2⟩

theorem firstDedup_mem [DecidableEq α] (xs : List α) (a : α) :
    a ∈ firstDedup xs ↔ a ∈ xs := by
  simp [firstDedup, firstDedupAux_mem]

theorem firstDedupAux_nodup [DecidableEq α] (seen xs : List α) :
    (firstDedupAux seen xs).Nodup := by
  induction xs generalizing seen with
  | nil => simp [firstDedupAux]
  | cons x xs ih =>
    by_cases hx : x ∈ seen
    · rw [firstDedupAux, if_pos hx]; exact ih seen
    · rw [firstDedupAux, if_neg hx]
      refine List.nodup_cons.mpr ⟨fun hmem => ?_, ih (x :: seen)⟩
      exact ((firstDedupAux_mem _ _ _).mp hmem).2 (List.mem_cons_self _ _)

theorem firstDedup_nodup [DecidableEq α] (xs : List α) : (firstDedup xs).Nodup :=
  firstDedupAux_nodup [] xs

theorem map_fst_keyed (ks : List κ) (f : κ → σ) :
    ((ks.map fun k => (k, f k)).map Prod.fst) = ks := by
  induction ks with
  | nil => rfl
  | cons k ks ih => simp only [List.map_cons, ih]

theorem filter_key_length [DecidableEq κ] (l : List β) (rk : β → κ) (k : κ) :
    (l.filter fun b => decide (rk b = k)).length = (l.map rk).count k := by
  induction l with
  | nil => simp
  | cons b bs ih =>
    by_cases hb : rk b = k
    · simp [List.filter_cons, hb, ih, List.count_cons]
    · simp [List.filter_cons, hb, ih, List.count_cons]

theorem filter_key_len_le_one [DecidableEq κ] {l : List β} {rk : β → κ}
    (h : (l.map rk).Nodup) (k : κ) :
    (l.filter fun b => decide (rk b = k)).length ≤ 1 := by
  rw [filter_key_length]
  exact List.nodup_iff_count_le_one.mp h k

theorem filter_key_len_eq_one [DecidableEq κ] {l : List β} {rk : β → κ}
    (h : (l.map rk).Nodup) {k : κ} (hk : k ∈ l.map rk) :
    (l.filter fun b => decide (rk b = k)).length = 1 := by
  rw [filter_key_length]
  exact List.count_eq_one_of_mem h hk

theorem leftMerge_cons [DecidableEq κ] (a : α) (as : List α) (r : List β)
    (lk : α → κ) (rk : β → κ) :
    leftMerge (a :: as) r lk rk =
      (match r.filter fun b => decide (rk b = lk a) with
        | [] => [(a, none)]
        | m :: ms => (m :: ms).map fun b => (a, some b)) ++ leftMerge as r lk rk := by
  simp [leftMerge, List.flatMap_cons]

theorem leftMerge_map_fst [DecidableEq κ] (l : List α) (r : List β)
    (lk : α → κ) (rk : β → κ)
    (h : ∀ k, (r.filter fun b => decide (rk b = k)).length ≤ 1) :
    (leftMerge l r lk rk).map Prod.fst = l := by
  induction l with
  | nil => rfl
  | cons a as ih =>
    rw [leftMerge_cons, List.map_append, ih]
    have hle := h (lk a)
    cases hf : r.filter fun b => decide (rk b = lk a) with
    | nil => simp [hf]
    | cons m ms =>
      rw [hf] at hle
      cases ms with
      | nil => simp [hf]
      | cons m2 ms2 => simp at hle

/-! ## C4: duplicate-name validation -/

/-- C4.  The experiment manifest holding two rows both named "a" makes
validation fail, but with a `TypeError` raised while the error message is
being built (`",".join(...)` applied to the boolean result of
`.duplicated().any()`), never with the intended `sys.exit` message that
would identify the duplicated name. -/
theorem c4_divergence :
    validate_exps [ExpRow.mk (some "a") "s1" "dna" "f1",
        ExpRow.mk (some "a") "s2" "mrna" "f2"] =
      Except.error (PyErr.typeError "can only join an iterable") ∧
    ∀ msg : String,
      validate_exps [ExpRow.mk (some "a") "s1" "dna" "f1",
          ExpRow.mk (some "a") "s2" "mrna" "f2"] ≠
        Except.error (PyErr.systemExit msg) := by
  refine ⟨rfl, fun msg h => ?_⟩
  rw [show validate_exps [ExpRow.mk (some "a") "s1" "dna" "f1",
      ExpRow.mk (some "a") "s2" "mrna" "f2"] =
      Except.error (PyErr.typeError "can only join an iterable") from rfl] at h
  simp at h

/-! ## C9: contig derivation -/

theorem splitChar_ne_nil (sep : Char) (cs : List Char) : splitChar sep cs ≠ [] := by
  cases cs with
  | nil => simp [splitChar]
  | cons c cs =>
    rw [splitChar]
    by_cases h : c = sep
    · simp [h]
    · rw [if_neg h]
      cases hs : splitChar sep cs <;> simp

theorem splitChar_no_sep (sep : Char) (cs : List Char) (h : sep ∉ cs) :
    splitChar sep cs = [cs] := by
  induction cs with
  | nil => rfl
  | cons c cs ih =>
    have hc : c ≠ sep := fun e => h (e ▸ List.mem_cons_self _ _)
    rw [splitChar, if_neg hc, ih (fun hm => h (List.mem_cons_of_mem _ hm))]

theorem splitChar_append (sep : Char) (a b : List Char) (ha : sep ∉ a) :
    splitChar sep (a ++ sep :: b) = a :: splitChar sep b := by
  induction a with
  | nil => simp [splitChar]
  | cons c a ih =>
    have hc : c ≠ sep := fun e => ha (e ▸ List.mem_cons_self _ _)
    rw [List.cons_append, splitChar, if_neg hc,
      ih (fun hm => ha (List.mem_cons_of_mem _ hm))]

/-- C9.  When assembly was performed, the Contig derived for a native ID
of the convention `<contig>_<orf-index>` is the second underscore-separated
segment; and the transformation applied to the DNA counts table's join-key
column (line 59) is the very same rule as the report side (line 44). -/
theorem c9_contig (a b : String) (ha : '_' ∉ a.data) (hb : '_' ∉ b.data) :
    contigOfId (a ++ "_" ++ b) = some b ∧ contigOfCountsKey = contigOfId := by
  refine ⟨?_, rfl⟩
  have hdata : (a ++ "_" ++ b).data = a.data ++ '_' :: b.data := by
    have h1 : ("_" : String).data = ['_'] := rfl
    rw [String.data_append, String.data_append, h1, List.append_assoc]
    rfl
  rw [contigOfId, splitSecond, hdata, splitChar_append _ _ _ ha,
    splitChar_no_sep _ _ hb]
  simp [String.ext_iff]

/-- Witness for C9 at the spec's own example `s1_1`. -/
theorem c9_contig_witness :
    contigOfId ("s1" ++ "_" ++ "1") = some "1" ∧ contigOfCountsKey = contigOfId :=
  c9_contig "s1" "1" (by decide) (by decide)

/-! ## C3: sheet splitting for oversized reports -/

theorem splitBySizes_lengths (xs : List α) (sizes : List ℕ) (h : sizes.sum ≤ xs.length) :
    (splitBySizes xs sizes).map List.length = sizes := by
  induction sizes generalizing xs with
  | nil => rfl
  | cons s ss ih =>
    rw [List.sum_cons] at h
    rw [splitBySizes, List.map_cons]
    congr 1
    · rw [List.length_take]; omega
    · exact ih _ (by rw [List.length_drop]; omega)

theorem string_append_assoc (a b c : String) : a ++ b ++ c = a ++ (b ++ c) :=
  String.ext (by simp [String.data_append])

/-- C3 (divergence).  On a 2,500,000-row report with the default
threshold of 1,000,000, the emitter writes exactly 2 sheets,
`<sample> (1)` and `<sample> (2)`, of 1,250,000 rows each:
`numpy.array_split(report, len(report) // max_lines)` splits into
`len // max_lines` near-equal chunks, so chunks are not capped at
`max_lines` (here each exceeds both the threshold and the 1,048,576-row
sheet capacity of the xlsx format), instead of the claimed 3 sheets of
1,000,000 / 1,000,000 / 500,000 rows. -/
theorem c3_divergence (sample : String) (rows : List α) (h : rows.length = 2500000) :
    (sampleSheets sample rows 1000000).map (fun p => (p.1, p.2.length)) =
      [(sample ++ " (1)", 1250000), (sample ++ " (2)", 1250000)] := by
  have hnlt : ¬ rows.length < 1000000 := by omega
  have h2 : rows.length / 1000000 = 2 := by rw [h]
  have ha : arraySplit rows 2 = splitBySizes rows [1250000, 1250000] := by
    rw [arraySplit, if_neg (by norm_num), h]
    norm_num [List.replicate]
  rw [sampleSheets, if_neg hnlt, h2, ha,
    show splitBySizes rows [1250000, 1250000] =
      [rows.take 1250000, (rows.drop 1250000).take 1250000] from rfl]
  simp only [List.enum_cons, List.enumFrom, List.map_cons, List.map_nil,
    List.length_take, List.length_drop, h]
  norm_num
  constructor
  · have ht : toString (1 : ℕ) = "1" := by decide
    rw [ht, string_append_assoc, string_append_assoc,
      show (" (" ++ ("1" ++ ")") : String) = " (1)" by decide]
  · have ht : toString (2 : ℕ) = "2" := by decide
    rw [ht, string_append_assoc, string_append_assoc,
      show (" (" ++ ("2" ++ ")") : String) = " (2)" by decide]

/-- Witness for C3 at a concrete 2,500,000-row table. -/
theorem c3_divergence_witness :
    (sampleSheets "s" (List.replicate 2500000 (0 : ℕ)) 1000000).map
        (fun p => (p.1, p.2.length)) =
      [("s (1)", 1250000), ("s (2)", 1250000)] :=
  c3_divergence "s" (List.replicate 2500000 (0 : ℕ)) (List.length_replicate _ _)

/-! ## C6: the protein-specific deduplication -/

/-- C6.  Two protein rows with identical Entity `P12345` and identical
values collapse to a single row of the emitted protein matrix (the
grouping sums their values); and after the protein-specific
`drop_duplicates().dropna(...)` steps the emitted matrix holds no
duplicate rows and no row lacking a quantification value. -/
theorem c6_protein_dedup :
    (mpMatrix [("P12345", [some (5 : ℚ)]), ("P12345", [some 5])] =
      [("P12345", [some 10])]) ∧
    (∀ t : QTable, (mpMatrix t).Nodup ∧ ∀ r ∈ mpMatrix t, r.2.all Option.isSome) := by
  constructor
  · simp [mpMatrix, dropna, dropDuplicates, groupbySum, firstDedup, firstDedupAux,
      sumRows, rowVals, addPad]
    norm_num
  · intro t
    exact ⟨List.Nodup.filter _ (firstDedup_nodup _), fun r hr => (List.mem_filter.mp hr).2⟩

/-- Witness for C6: the collapsed row of the scenario is in the matrix
and carries no missing value. -/
theorem c6_protein_dedup_witness :
    (("P12345", ([some (10 : ℚ)] : List (Option ℚ))) ∈
      mpMatrix [("P12345", [some 5]), ("P12345", [some 5])]) ∧
    (([some (10 : ℚ)] : List (Option ℚ)).all Option.isSome) := by
  refine ⟨?_, ?_⟩
  · rw [c6_protein_dedup.1]
    exact List.mem_singleton_self _
  · exact (c6_protein_dedup.2 [("P12345", [some 5]), ("P12345", [some 5])]).2 _
      (by rw [c6_protein_dedup.1]; exact List.mem_singleton_self _)

/-! ## C7: first-wins deduplication of annotation tables -/

theorem getOpt_cons_zero (x : Option σ) (xs : List (Option σ)) :
    getOpt (x :: xs) 0 = x := by simp [getOpt]

theorem getOpt_cons_succ (x : Option σ) (xs : List (Option σ)) (j : ℕ) :
    getOpt (x :: xs) (j + 1) = getOpt xs j := by simp [getOpt]

theorem getOpt_orElsePad (xs ys : List (Option σ)) (j : ℕ) :
    getOpt (orElsePad xs ys) j =
      if (getOpt xs j).isSome then getOpt xs j else getOpt ys j := by
  induction xs generalizing ys j with
  | nil => simp [orElsePad, getOpt]
  | cons x xs ih =>
    cases ys with
    | nil =>
      rw [show orElsePad (x :: xs) ([] : List (Option σ)) = x :: xs from rfl]
      cases h : getOpt (x :: xs) j with
      | none => simp [h, getOpt]
      | some v => simp [h]
    | cons y ys =>
      cases j with
      | zero =>
        rw [getOpt_cons_zero]
        rw [orElsePad]
        cases x <;> simp [getOpt_cons_zero]
      | succ j =>
        rw [getOpt_cons_succ, orElsePad, getOpt_cons_succ, getOpt_cons_succ, ih]

theorem getOpt_firstNonNull (rs : List (List (Option σ))) (j : ℕ) :
    getOpt (firstNonNull rs) j = specFirst (rs.map fun r => getOpt r j) := by
  induction rs with
  | nil => simp [firstNonNull, specFirst, getOpt]
  | cons r rs ih => rw [firstNonNull, getOpt_orElsePad, ih, List.map_cons, specFirst]

theorem orElsePad_length (xs ys : List (Option σ)) :
    (orElsePad xs ys).length = max xs.length ys.length := by
  induction xs generalizing ys with
  | nil => simp [orElsePad]
  | cons x xs ih =>
    cases ys with
    | nil => simp [orElsePad]
    | cons y ys =>
      rw [orElsePad]
      simp only [List.length_cons, ih]
      omega

theorem firstNonNull_length_le (rs : List (List (Option σ))) (n : ℕ)
    (h : ∀ r ∈ rs, r.length ≤ n) : (firstNonNull rs).length ≤ n := by
  induction rs with
  | nil => simp [firstNonNull]
  | cons r rs ih =>
    rw [firstNonNull, orElsePad_length]
    have h1 := h r (List.mem_cons_self _ _)
    have h2 := ih fun r hr => h r (List.mem_cons_of_mem _ hr)
    omega

theorem orElsePad_all_some (xs ys : List (Option σ)) (hx : xs.all Option.isSome)
    (hl : ys.length ≤ xs.length) : orElsePad xs ys = xs := by
  induction xs generalizing ys with
  | nil =>
    cases ys with
    | nil => rfl
    | cons y ys => simp at hl
  | cons x xs ih =>
    cases ys with
    | nil => rfl
    | cons y ys =>
      rw [List.all_cons] at hx
      have hx1 : x.isSome := (Bool.and_eq_true_iff.mp hx).1
      have hx2 : xs.all Option.isSome := (Bool.and_eq_true_iff.mp hx).2
      rw [orElsePad, if_pos hx1,
        ih ys hx2 (by simp only [List.length_cons] at hl; omega)]

/-- C7 (counterexample).  `groupby(key).first()` takes, per column, the
first non-null value of the group: on a key with two records where the
first record has a null first field, the retained record mixes both rows
and equals neither input record - in particular not the first record, as
the claim states. -/
theorem c7_counterexample :
    groupbyFirst [("k", [none, some "b"]), ("k", [some "c", some "d"])] =
      [("k", [some "c", some "b"])] ∧
    ∀ r ∈ [("k", ([none, some "b"] : List (Option String))),
        ("k", [some "c", some "d"])],
      groupbyFirst [("k", [none, some "b"]), ("k", [some "c", some "d"])] ≠ [r] := by
  decide

/-- C7 (amended).  For every query ID of an annotation table, the grouped
table retains exactly one record; each of its fields is the first
non-null value of that field over the key's records in input order; and
it coincides with the key's first record whenever that record has no
missing field and is at least as wide as the key's other records. -/
theorem c7_amended (rows : List (String × List (Option String))) (k : String)
    (hk : k ∈ rows.map Prod.fst) :
    ((groupbyFirst rows).filter fun r => decide (r.1 = k)).length = 1 ∧
    ∀ row ∈ groupbyFirst rows, row.1 = k →
      (∀ j, getOpt row.2 j =
        specFirst (((rows.filter fun r => decide (r.1 = k)).map Prod.snd).map
          fun f => getOpt f j)) ∧
      (∀ f0 frest, (rows.filter fun r => decide (r.1 = k)).map Prod.snd = f0 :: frest →
        f0.all Option.isSome → (∀ f ∈ frest, f.length ≤ f0.length) → row.2 = f0) := by
  have hkeys : (groupbyFirst rows).map Prod.fst = firstDedup (rows.map Prod.fst) :=
    map_fst_keyed _ _
  constructor
  · refine @filter_key_len_eq_one _ _ _ _ Prod.fst ?_ _ ?_
    · rw [hkeys]; exact firstDedup_nodup _
    · rw [hkeys]; exact (firstDedup_mem _ _).mpr hk
  · intro row hrow hrk
    rw [groupbyFirst] at hrow
    obtain ⟨k2, hk2, hrow⟩ := List.mem_map.mp hrow
    have hkk : k2 = k := by rw [← hrow] at hrk; exact hrk
    subst hkk
    constructor
    · intro j
      rw [← hrow]
      simp only [getOpt_firstNonNull, List.map_map]
    · intro f0 frest heq hall hwide
      rw [← hrow]
      simp only [heq, firstNonNull]
      exact orElsePad_all_some _ _ hall
        (firstNonNull_length_le _ _ fun f hf => hwide f hf)

/-- Witness for C7 (amended) on a one-record table. -/
theorem c7_amended_witness :
    ((groupbyFirst [("k", [some "x"])]).filter fun r => decide (r.1 = "k")).length = 1 :=
  (c7_amended [("k", [some "x"])] "k" (by decide)).1

/-! ## C2: entity-keyed aggregation sums each column per group -/

theorem cellVal_map_some (xs : List ℚ) (j : ℕ) :
    cellVal (xs.map some) j = (xs[j]?).getD 0 := by
  simp only [cellVal, getOpt, List.getElem?_map]
  cases xs[j]? <;> simp

theorem addPad_cell (xs ys : List ℚ) (j : ℕ) :
    ((addPad xs ys)[j]?).getD 0 = (xs[j]?).getD 0 + (ys[j]?).getD 0 := by
  induction xs generalizing ys j with
  | nil => simp [addPad]
  | cons x xs ih =>
    cases ys with
    | nil => simp [addPad]
    | cons y ys =>
      cases j with
      | zero => simp [addPad]
      | succ j => simp [addPad, ih]

theorem rowVals_cell (r : List (Option ℚ)) (j : ℕ) :
    ((rowVals r)[j]?).getD 0 = cellVal r j := by
  simp only [rowVals, cellVal, getOpt, List.getElem?_map]
  cases r[j]? with
  | none => simp
  | some v => simp

theorem sumRows_cell (rs : List (List (Option ℚ))) (j : ℕ) :
    ((sumRows rs)[j]?).getD 0 = (rs.map fun r => cellVal r j).sum := by
  induction rs with
  | nil => simp [sumRows]
  | cons r rs ih => simp [sumRows, addPad_cell, rowVals_cell, ih]

/-- C2.  The emitted cross-sample matrix holds exactly one row per
distinct Entry value observed in the accumulated table; each column of an
Entry's row is the sum of that Entry's values over all contributing rows
(missing cells contributing nothing); and an Entry contributing a single
row keeps that row's values unchanged. -/
theorem c2_aggregation (t : QTable) (k : String) (hk : k ∈ t.map Prod.fst) :
    (((groupbySum t).map Prod.fst).Nodup ∧
      ∀ e : String, e ∈ (groupbySum t).map Prod.fst ↔ e ∈ t.map Prod.fst) ∧
    (∀ row ∈ groupbySum t, row.1 = k →
      ∀ j, cellVal row.2 j = ((entryVals t k).map fun r => cellVal r j).sum) ∧
    (∀ row ∈ groupbySum t, row.1 = k → ∀ r0, entryVals t k = [r0] →
      ∀ j, cellVal row.2 j = cellVal r0 j) := by
  have hkeys : (groupbySum t).map Prod.fst = firstDedup (t.map Prod.fst) :=
    map_fst_keyed _ _
  have hsum : ∀ row ∈ groupbySum t, row.1 = k →
      ∀ j, cellVal row.2 j = ((entryVals t k).map fun r => cellVal r j).sum := by
    intro row hrow hrk j
    rw [groupbySum] at hrow
    obtain ⟨k2, hk2, heq⟩ := List.mem_map.mp hrow
    have hkk : k2 = k := by rw [← heq] at hrk; exact hrk
    subst hkk
    rw [← heq]
    rw [cellVal_map_some, sumRows_cell]
    rfl
  refine ⟨⟨?_, ?_⟩, hsum, ?_⟩
  · rw [hkeys]; exact firstDedup_nodup _
  · intro e; rw [hkeys]; exact firstDedup_mem _ _
  · intro row hrow hrk r0 h0 j
    rw [hsum row hrow hrk j, h0]
    simp

/-- Witness for C2 on a three-row table where Entry E contributes two
rows (3 + 4) and Entry F one row. -/
theorem c2_aggregation_witness :
    ("E" ∈ ([("E", [some (3 : ℚ)]), ("E", [some 4]), ("F", [some 7])] : QTable).map
      Prod.fst) ∧
    (((groupbySum [("E", [some (3 : ℚ)]), ("E", [some 4]), ("F", [some 7])]).map
      Prod.fst).Nodup ∧
      ∀ e : String,
        e ∈ (groupbySum [("E", [some (3 : ℚ)]), ("E", [some 4]), ("F", [some 7])]).map
          Prod.fst ↔
        e ∈ ([("E", [some (3 : ℚ)]), ("E", [some 4]), ("F", [some 7])] : QTable).map
          Prod.fst) :=
  ⟨by decide,
    (c2_aggregation [("E", [some 3]), ("E", [some 4]), ("F", [some 7])] "E" (by decide)).1⟩

/-! ## C5: quantification fill-and-cast -/

theorem leftMerge_mem [DecidableEq κ] {l : List α} {r : List β} {lk : α → κ}
    {rk : β → κ} {a : α} {ob : Option β} (h : (a, ob) ∈ leftMerge l r lk rk) :
    a ∈ l ∧ (∀ b, ob = some b → b ∈ r ∧ rk b = lk a) ∧
      (ob = none → ∀ b ∈ r, rk b ≠ lk a) := by
  induction l with
  | nil => simp [leftMerge] at h
  | cons a0 as ih =>
    rw [leftMerge_cons] at h
    rcases List.mem_append.mp h with h1 | h1
    · cases hf : r.filter fun b => decide (rk b = lk a0) with
      | nil =>
        rw [hf] at h1
        simp only [List.mem_singleton, Prod.mk.injEq] at h1
        obtain ⟨ha, hb⟩ := h1
        refine ⟨by rw [ha]; exact List.mem_cons_self _ _, ?_, ?_⟩
        · intro b hb2
          rw [hb] at hb2
          simp at hb2
        · intro _ b hbr hbe
          have hbe0 : rk b = lk a0 := by rw [← ha]; exact hbe
          have hmemf : b ∈ r.filter fun x => decide (rk x = lk a0) :=
            List.mem_filter.mpr ⟨hbr, by simp [hbe0]⟩
          rw [hf] at hmemf
          simp at hmemf
      | cons m ms =>
        rw [hf] at h1
        obtain ⟨b, hbm, hbe⟩ := List.mem_map.mp h1
        have ha : a0 = a := congrArg Prod.fst hbe
        have hb : some b = ob := congrArg Prod.snd hbe
        have hbf : b ∈ r.filter fun x => decide (rk x = lk a0) := by rw [hf]; exact hbm
        have hbr := List.mem_filter.mp hbf
        refine ⟨by rw [← ha]; exact List.mem_cons_self _ _, ?_, ?_⟩
        · intro b2 hb2
          rw [← hb] at hb2
          injection hb2 with hbb
          subst hbb
          refine ⟨hbr.1, ?_⟩
          rw [← ha]
          exact of_decide_eq_true hbr.2
        · intro hnone
          rw [← hb] at hnone
          simp at hnone
    · obtain ⟨hmem, hsome, hnone⟩ := ih h1
      exact ⟨List.mem_cons_of_mem _ hmem, hsome, hnone⟩

theorem fillCastCell_nonneg (v : Option ℚ) (h : ∀ q, v = some q → 0 ≤ q) :
    0 ≤ fillCastCell v := by
  cases v with
  | none => simp [fillCastCell, truncFloat]
  | some q =>
    have hq := h q rfl
    simp only [fillCastCell, Option.getD_some, truncFloat, if_pos hq]
    exact Int.le_floor.mpr (by exact_mod_cast hq)

theorem fillCastRow_none (ncols : ℕ) :
    fillCastRow ncols none = List.replicate ncols 0 := by
  have h0 : fillCastCell none = 0 := by simp [fillCastCell, truncFloat]
  simp only [fillCastRow, Option.getD_none, List.getElem?_nil]
  rw [show (fun j : ℕ => fillCastCell none) = fun _ : ℕ => (0 : ℤ) by
    funext j; exact h0]
  rw [List.map_const', List.length_range]

/-- C5.  After the merge of one quantification table and the
fill-and-cast of line 85, every feature row carries exactly `ncols`
integer cells; all cells are non-negative whenever the source values are;
a feature with no matching source row gets all-zero cells; and a matched
cell holds the floor of the (non-negative) source value, or 0 where the
source cell itself was missing. -/
theorem c5_fill_cast (report : List String) (counts : List (String × List (Option ℚ)))
    (ncols : ℕ)
    (hpos : ∀ c ∈ counts, ∀ v ∈ c.2, ∀ q, v = some q → 0 ≤ q) :
    ∀ p ∈ mergeQuant report counts,
      (fillCastRow ncols p.2).length = ncols ∧
      (∀ z ∈ fillCastRow ncols p.2, 0 ≤ z) ∧
      ((∀ c ∈ counts, c.1 ≠ p.1) → fillCastRow ncols p.2 = List.replicate ncols 0) ∧
      (∀ vs, p.2 = some vs → ∀ j, j < ncols →
        (fillCastRow ncols p.2)[j]? = some (fillCastCell (getOpt vs j)) ∧
        (∀ q, getOpt vs j = some q → fillCastCell (getOpt vs j) = ⌊q⌋) ∧
        (getOpt vs j = none → fillCastCell (getOpt vs j) = 0)) := by
  intro p hp
  obtain ⟨pr, hpr, hpe⟩ := List.mem_map.mp hp
  obtain ⟨q0, ob⟩ := pr
  obtain ⟨hq0, hob⟩ : p.1 = q0 ∧ p.2 = ob.map Prod.snd := by
    constructor <;> rw [← hpe]
  have hlm := leftMerge_mem hpr
  have hvals : ∀ vs, p.2 = some vs → ∀ j q, getOpt vs j = some q → 0 ≤ q := by
    intro vs hvs j q hq
    rw [hob] at hvs
    cases ob with
    | none => cases hvs
    | some c =>
      have hc := (hlm.2.1 c rfl).1
      have hcs : c.2 = vs := by
        simpa using hvs
      rw [getOpt] at hq
      cases hj : vs[j]? with
      | none => rw [hj] at hq; cases hq
      | some v =>
        rw [hj] at hq
        simp only [Option.getD_some] at hq
        subst hq
        have hvin : some q ∈ vs := by
          obtain ⟨hlt, hval⟩ := List.getElem?_eq_some_iff.mp hj
          exact hval ▸ List.getElem_mem hlt
        exact hpos c hc (some q) (hcs ▸ hvin) q rfl
  refine ⟨?_, ?_, ?_, ?_⟩
  · simp [fillCastRow]
  · intro z hz
    obtain ⟨j, hj, hje⟩ := List.mem_map.mp hz
    rw [← hje]
    apply fillCastCell_nonneg
    intro q hq
    cases hob2 : p.2 with
    | none => rw [hob2] at hq; simp at hq
    | some vs =>
      rw [hob2] at hq
      exact hvals vs hob2 j q (by simpa [getOpt] using hq)
  · intro hnom
    have hnone : p.2 = none := by
      rw [hob]
      cases ob with
      | none => rfl
      | some c =>
        have hc := hlm.2.1 c rfl
        exact absurd (hq0 ▸ hc.2) (hnom c hc.1)
    rw [hnone, fillCastRow_none]
  · intro vs hvs j hj
    have hcell : (fillCastRow ncols p.2)[j]? = some (fillCastCell (getOpt vs j)) := by
      rw [hvs]
      simp only [fillCastRow, List.getElem?_map, List.getElem?_range hj]
      simp [getOpt]
    refine ⟨hcell, ?_, ?_⟩
    · intro q hq
      have h0 : 0 ≤ q := hvals vs hvs j q hq
      rw [hq]
      simp only [fillCastCell, Option.getD_some, truncFloat, if_pos h0]
    · intro hq
      rw [hq]
      simp [fillCastCell, truncFloat]

/-- Witness for C5 on a two-feature report where only feature a has a
source row. -/
theorem c5_fill_cast_witness :
    (fillCastRow 1 (some [some (3 : ℚ)])).length = 1 :=
  (((c5_fill_cast ["a", "b"] [("a", [some 3])] 1 (by
      intro c hc v hv q hq
      simp only [List.mem_singleton] at hc
      subst hc
      simp only [List.mem_singleton] at hv
      subst hv
      injection hq with h
      subst h
      norm_num)) ("a", some [some 3]) (by decide)).1)

/-! ## C8: disambiguation of shared column names -/

theorem string_append_cancel_right (a b s : String) (h : a ++ s = b ++ s) : a = b := by
  apply String.ext
  have hd := congrArg String.data h
  rw [String.data_append, String.data_append] at hd
  exact List.append_cancel_right hd

theorem string_append_left_ne (a : String) {s t : String} (h : s ≠ t) :
    a ++ s ≠ a ++ t := by
  intro he
  apply h
  apply String.ext
  have hd := congrArg String.data he
  rw [String.data_append, String.data_append] at hd
  exact List.append_cancel_left hd

theorem string_append_ne_suffix (a b : String) {s t : String}
    (hlen : s.data.length = t.data.length) (hst : s ≠ t) : a ++ s ≠ b ++ t := by
  intro h
  apply hst
  apply String.ext
  have hd := congrArg String.data h
  rw [String.data_append, String.data_append] at hd
  have hab : a.data.length = b.data.length := by
    have hl := congrArg List.length hd
    simp only [List.length_append] at hl
    omega
  exact List.append_inj_right hd hab

theorem lookup_keyed_hit (l : List String) (f suf out : String) (hf : f ∈ l) :
    List.lookup (f ++ suf) (l.map fun c => (c ++ suf, c ++ out)) = some (f ++ out) := by
  induction l with
  | nil => cases hf
  | cons c cs ih =>
    rw [List.map_cons, List.lookup]
    by_cases hc : f ++ suf = c ++ suf
    · have hcf : c = f := string_append_cancel_right _ _ _ hc.symm
      subst hcf
      simp
    · have hbe : (f ++ suf == c ++ suf) = false := by
        simp only [beq_eq_false_iff_ne, ne_eq]
        exact hc
      rw [hbe]
      have hfcs : f ∈ cs := by
        rcases List.mem_cons.mp hf with he | he
        · exact absurd (he ▸ rfl) hc
        · exact he
      exact ih hfcs

theorem lookup_keyed_miss (l : List String) (key suf out : String)
    (h : ∀ c ∈ l, c ++ suf ≠ key) :
    List.lookup key (l.map fun c => (c ++ suf, c ++ out)) = none := by
  induction l with
  | nil => rfl
  | cons c cs ih =>
    rw [List.map_cons, List.lookup]
    have hbe : (key == c ++ suf) = false := by
      simp only [beq_eq_false_iff_ne, ne_eq]
      exact fun he => h c (List.mem_cons_self _ _) he.symm
    rw [hbe]
    exact ih fun c2 hc2 => h c2 (List.mem_cons_of_mem _ hc2)

theorem lookup_append_some {β} (k : String) (l1 l2 : List (String × β)) (v : β)
    (h : List.lookup k l1 = some v) : List.lookup k (l1 ++ l2) = some v := by
  induction l1 with
  | nil => cases h
  | cons e es ih =>
    obtain ⟨ek, ev⟩ := e
    rw [List.lookup] at h
    show List.lookup k ((ek, ev) :: (es ++ l2)) = some v
    rw [List.lookup]
    cases hbe : (k == ek) with
    | true => rw [hbe] at h; exact h
    | false => rw [hbe] at h; exact ih h

theorem lookup_append_none {β} (k : String) (l1 l2 : List (String × β))
    (h : List.lookup k l1 = none) : List.lookup k (l1 ++ l2) = List.lookup k l2 := by
  induction l1 with
  | nil => rfl
  | cons e es ih =>
    obtain ⟨ek, ev⟩ := e
    rw [List.lookup] at h
    show List.lookup k ((ek, ev) :: (es ++ l2)) = List.lookup k l2
    rw [List.lookup]
    cases hbe : (k == ek) with
    | true => rw [hbe] at h; cases h
    | false => rw [hbe] at h; exact ih h

theorem renameColumn_x_hit (f : String) (hf : f ∈ rename_cols) :
    renameColumn (f ++ "_x") = f ++ " (UPIMAPI)" := by
  rw [renameColumn, renameMap,
    lookup_append_some _ _ _ _ (lookup_keyed_hit rename_cols f "_x" " (UPIMAPI)" hf)]
  rfl

theorem renameColumn_y_hit (f : String) (hf : f ∈ rename_cols) :
    renameColumn (f ++ "_y") = f ++ " (reCOGnizer)" := by
  rw [renameColumn, renameMap,
    lookup_append_none _ _ _ (lookup_keyed_miss rename_cols (f ++ "_y") "_x" " (UPIMAPI)"
      fun c _ => string_append_ne_suffix c f (by decide) (by decide)),
    lookup_keyed_hit rename_cols f "_y" " (reCOGnizer)" hf]
  rfl

theorem renameColumn_x_miss (f : String) (hf : f ∉ rename_cols) :
    renameColumn (f ++ "_x") = f ++ "_x" := by
  rw [renameColumn, renameMap,
    lookup_append_none _ _ _ (lookup_keyed_miss rename_cols (f ++ "_x") "_x" " (UPIMAPI)"
      fun c hc he => hf ((string_append_cancel_right c f "_x" he) ▸ hc)),
    lookup_keyed_miss rename_cols (f ++ "_x") "_y" " (reCOGnizer)"
      fun c _ => string_append_ne_suffix c f (by decide) (by decide)]
  rfl

theorem renameColumn_y_miss (f : String) (hf : f ∉ rename_cols) :
    renameColumn (f ++ "_y") = f ++ "_y" := by
  rw [renameColumn, renameMap,
    lookup_append_none _ _ _ (lookup_keyed_miss rename_cols (f ++ "_y") "_x" " (UPIMAPI)"
      fun c _ => string_append_ne_suffix c f (by decide) (by decide)),
    lookup_keyed_miss rename_cols (f ++ "_y") "_y" " (reCOGnizer)"
      fun c hc he => hf ((string_append_cancel_right c f "_y" he) ▸ hc)]
  rfl

theorem mem_mergeColumns_x (lcols rcols : List String) (f key : String)
    (hl : f ∈ lcols) (hr : f ∈ rcols) (hk : f ≠ key) :
    f ++ "_x" ∈ mergeColumns lcols rcols key := by
  apply List.mem_append_left
  exact List.mem_map.mpr ⟨f, hl, by rw [if_pos ⟨hk, hr⟩]⟩

theorem mem_mergeColumns_y (lcols rcols : List String) (f key : String)
    (hl : f ∈ lcols) (hr : f ∈ rcols) (hk : f ≠ key) :
    f ++ "_y" ∈ mergeColumns lcols rcols key := by
  apply List.mem_append_right
  refine List.mem_map.mpr ⟨f, List.mem_filter.mpr ⟨hr, by simp [hk]⟩, by rw [if_pos hl]⟩

/-- C8 (counterexample).  A field shared by both annotation tables but
outside `blast_cols + ['EC number']` keeps pandas' generic `_x`/`_y`
suffixes: the final report holds two distinct columns `Foo_x`/`Foo_y`,
not columns suffixed with the source tool names as the claim states. -/
theorem c8_counterexample :
    finalColumns ["qseqid", "Foo"] ["qseqid", "Foo"] = ["qseqid", "Foo_x", "Foo_y"] ∧
    "Foo (UPIMAPI)" ∉ finalColumns ["qseqid", "Foo"] ["qseqid", "Foo"] ∧
    "Foo (reCOGnizer)" ∉ finalColumns ["qseqid", "Foo"] ["qseqid", "Foo"] := by
  decide

/-- C8 (amended).  Every field shared by the two annotation tables yields
two distinct report columns (never a silently collapsed single column):
fields among `blast_cols + ['EC number']` get the tool-name suffixes
` (UPIMAPI)` and ` (reCOGnizer)`; any other shared field keeps the
generic `_x`/`_y` suffixes of the merge. -/
theorem c8_amended (lcols rcols : List String) (f : String)
    (hl : f ∈ lcols) (hr : f ∈ rcols) (hk : f ≠ "qseqid") :
    (f ∈ rename_cols →
      f ++ " (UPIMAPI)" ∈ finalColumns lcols rcols ∧
      f ++ " (reCOGnizer)" ∈ finalColumns lcols rcols ∧
      f ++ " (UPIMAPI)" ≠ f ++ " (reCOGnizer)") ∧
    (f ∉ rename_cols →
      f ++ "_x" ∈ finalColumns lcols rcols ∧
      f ++ "_y" ∈ finalColumns lcols rcols ∧
      f ++ "_x" ≠ f ++ "_y") := by
  constructor
  · intro hf
    refine ⟨?_, ?_, string_append_left_ne f (by decide)⟩
    · exact List.mem_map.mpr ⟨f ++ "_x", mem_mergeColumns_x _ _ _ _ hl hr hk,
        renameColumn_x_hit f hf⟩
    · exact List.mem_map.mpr ⟨f ++ "_y", mem_mergeColumns_y _ _ _ _ hl hr hk,
        renameColumn_y_hit f hf⟩
  · intro hf
    refine ⟨?_, ?_, string_append_left_ne f (by decide)⟩
    · exact List.mem_map.mpr ⟨f ++ "_x", mem_mergeColumns_x _ _ _ _ hl hr hk,
        renameColumn_x_miss f hf⟩
    · exact List.mem_map.mpr ⟨f ++ "_y", mem_mergeColumns_y _ _ _ _ hl hr hk,
        renameColumn_y_miss f hf⟩

/-- Witness for C8 (amended) at the shared field EC number. -/
theorem c8_amended_witness :
    "EC number" ++ " (UPIMAPI)" ∈
      finalColumns ["qseqid", "EC number"] ["qseqid", "EC number"] :=
  ((c8_amended ["qseqid", "EC number"] ["qseqid", "EC number"] "EC number"
    (by decide) (by decide) (by decide)).1 (by decide)).1

/-! ## C1: row cardinality of the per-sample feature table -/

theorem groupbyFirst_keys_nodup [DecidableEq κ] (rows : List (κ × List (Option σ))) :
    ((groupbyFirst rows).map Prod.fst).Nodup := by
  rw [groupbyFirst, map_fst_keyed]
  exact firstDedup_nodup _

theorem reportAfterCog_map_fst (headers : List String) (cog : List CogRow) :
    (reportAfterCog headers cog).map Prod.fst = headers := by
  rw [reportAfterCog]
  have h1 : (leftMerge headers (cogGrouped cog) id Prod.fst).map Prod.fst = headers :=
    leftMerge_map_fst _ _ _ _ fun k =>
      filter_key_len_le_one (groupbyFirst_keys_nodup _) k
  exact h1

theorem map_fst_filter_key {γ δ : Type _} (p : γ → Bool) (l : List (γ × δ)) :
    (l.filter fun b => p b.1).map Prod.fst = (l.map Prod.fst).filter p := by
  induction l with
  | nil => rfl
  | cons e es ih =>
    cases hbe : p e.1 <;> simp [List.filter_cons, hbe, ih]

theorem outerMerge_left_keys [DecidableEq κ] (l : List α) (r : List β)
    (lk : α → κ) (rk : β → κ) (pick : Option α × Option β → κ)
    (hpick : ∀ a b, pick (some a, b) = lk a)
    (hmatch : ∀ a ∈ l, (r.filter fun b => decide (rk b = lk a)).length = 1) :
    ((l.flatMap fun a =>
      match r.filter fun b => decide (rk b = lk a) with
      | [] => [((some a : Option α), (none : Option β))]
      | m :: ms => (m :: ms).map fun b => (some a, some b)).map pick) = l.map lk := by
  induction l with
  | nil => rfl
  | cons a as ih =>
    rw [List.flatMap_cons, List.map_append]
    have h1 := hmatch a (List.mem_cons_self _ _)
    have hih := ih fun a2 ha2 => hmatch a2 (List.mem_cons_of_mem _ ha2)
    cases hf : r.filter fun b => decide (rk b = lk a) with
    | nil => rw [hf] at h1; simp at h1
    | cons m ms =>
      rw [hf] at h1
      cases ms with
      | nil =>
        simp [hpick]
        simpa using hih
      | cons m2 ms2 => simp at h1

/-- C1 (counterexample).  The UPIMAPI merge of line 36 is an outer merge
with the UPIMAPI table on the left: a UPIMAPI record whose query ID is
absent from the gene-calling headers adds a row, so the report of a
one-header FASTA gains a second row. -/
theorem c1_counterexample :
    (reportRows (parseHeaders [">a"]) [] [("x", [])]).length = 2 ∧
    ([">a"].filter fun l => pyStartsWith ">" l).length = 1 := by
  decide

/-- C1 (amended).  Provided the parsed FASTA headers are distinct and the
UPIMAPI table's query IDs are distinct and all occur among the headers,
the per-sample table has exactly one row per FASTA header line (the
reCOGnizer stage preserves cardinality unconditionally thanks to its
group-by-first, and the outer UPIMAPI merge then neither adds nor
duplicates rows) and no native ID appears in more than one row.  Without
those side conditions the outer merge of line 36 can add rows, as the
counterexample shows. -/
theorem c1_amended (lines : List String) (cog : List CogRow) (upi : List UpiRow)
    (hh : (parseHeaders lines).Nodup)
    (hu : (upi.map Prod.fst).Nodup)
    (hsub : ∀ k ∈ upi.map Prod.fst, k ∈ parseHeaders lines) :
    (reportRows (parseHeaders lines) cog upi).length =
      (lines.filter fun l => pyStartsWith ">" l).length ∧
    ((reportRows (parseHeaders lines) cog upi).map rowQseqid).Nodup := by
  have hRfst : (reportAfterCog (parseHeaders lines) cog).map Prod.fst = parseHeaders lines :=
    reportAfterCog_map_fst _ _
  have hmatch : ∀ u ∈ upi,
      ((reportAfterCog (parseHeaders lines) cog).filter fun b =>
        decide (b.1 = u.1)).length = 1 := by
    intro u hu2
    refine @filter_key_len_eq_one _ _ _ _ Prod.fst ?_ _ ?_
    · rw [hRfst]; exact hh
    · rw [hRfst]; exact hsub u.1 (List.mem_map.mpr ⟨u, hu2, rfl⟩)
  have hmap : (reportRows (parseHeaders lines) cog upi).map rowQseqid =
      upi.map Prod.fst ++
        (parseHeaders lines).filter fun x => decide (x ∉ upi.map Prod.fst) := by
    rw [reportRows, outerMerge, List.map_append]
    congr 1
    · exact outerMerge_left_keys upi (reportAfterCog (parseHeaders lines) cog)
        Prod.fst Prod.fst rowQseqid (fun a b => rfl) hmatch
    · rw [List.map_map]
      have hcomp : (rowQseqid ∘ fun b : String × Option (String × List (Option String)) =>
          ((none : Option UpiRow), some b)) = Prod.fst := by
        funext b
        rfl
      rw [hcomp]
      have hmf := map_fst_filter_key
        (fun x => upi.all fun a => !(decide (a.1 = x)))
        (reportAfterCog (parseHeaders lines) cog)
      simp only at hmf
      rw [hmf, hRfst]
      apply List.filter_congr
      intro b _
      rw [Bool.eq_iff_iff]
      simp only [List.all_eq_true, Bool.not_eq_eq_eq_not, Bool.not_true,
        decide_eq_false_iff_not, decide_eq_true_eq]
      constructor
      · intro hall hmem
        obtain ⟨u, hu2, hue⟩ := List.mem_map.mp hmem
        exact hall u hu2 hue
      · intro hnm u hu2 hue
        exact hnm (List.mem_map.mpr ⟨u, hu2, hue⟩)
  have hnd1 : (upi.map Prod.fst ++
      (parseHeaders lines).filter fun x => decide (x ∉ upi.map Prod.fst)).Nodup := by
    rw [List.nodup_append]
    refine ⟨hu, hh.filter _, ?_⟩
    intro x hx1 hx2
    have := (List.mem_filter.mp hx2).2
    simp only [decide_eq_true_eq] at this
    exact this hx1
  have hperm : (upi.map Prod.fst ++
      (parseHeaders lines).filter fun x => decide (x ∉ upi.map Prod.fst)).Perm
        (parseHeaders lines) := by
    refine (List.perm_ext_iff_of_nodup hnd1 hh).mpr fun x => ?_
    simp only [List.mem_append, List.mem_filter, decide_eq_true_eq]
    constructor
    · rintro (hx | ⟨hx, _⟩)
      · exact hsub x hx
      · exact hx
    · intro hx
      by_cases hmem : x ∈ upi.map Prod.fst
      · exact Or.inl hmem
      · exact Or.inr ⟨hx, hmem⟩
  constructor
  · calc (reportRows (parseHeaders lines) cog upi).length
        = ((reportRows (parseHeaders lines) cog upi).map rowQseqid).length :=
          (List.length_map _ _).symm
      _ = (parseHeaders lines).length := by rw [hmap]; exact hperm.length_eq
      _ = (lines.filter fun l => pyStartsWith ">" l).length := List.length_map _ _
  · rw [hmap]
    exact hnd1

/-- Witness for C1 (amended) on a two-header FASTA with one in-universe
UPIMAPI record. -/
theorem c1_amended_witness :
    (reportRows (parseHeaders [">a", ">b"]) [] [("a", [])]).length =
      ([">a", ">b"].filter fun l => pyStartsWith ">" l).length :=
  (c1_amended [">a", ">b"] [] [("a", [])] (by decide) (by decide) (by decide)).1

/-! ## C10: the accumulators pass through unchanged -/

/-- C10.  `make_general_report` hands its four cross-sample accumulators
back unchanged, so the per-sample loop of `make_general_reports` leaves
them equal to whatever they started as - in particular still equal to the
initial empty Entry-only tables after all samples are processed. -/
theorem c10_frame (did_assembly : Bool) (samples : List SampleData) (a : Accs) :
    reportLoop did_assembly samples a = a ∧
    reportLoop did_assembly samples init_accs = init_accs := by
  constructor
  · induction samples with
    | nil => rfl
    | cons d rest ih => rw [reportLoop, make_general_report]; exact ih
  · induction samples with
    | nil => rfl
    | cons d rest ih => rw [reportLoop, make_general_report]; exact ih

end Mosca
